import Mathlib

/-!
# Verification of the media-fragment temporal parser and boundary enforcer

Shallow embedding of `src/utils/media-fragment-parser.ts` (functions
`parseMediaFragment` and `parseNptTime`) and of the boundary-enforcer latch
described by the design document (the controller's source is not in the
snapshot; only its tests are, so the enforcer is modelled from the spec).

Strings are modelled as `List Char` (the wrappers over `String` use `.data`);
JavaScript numbers are modelled as exact rationals `ℚ`.  `parseFloat` is
modelled by `jsParseFloat`: leading whitespace skipped, optional sign, a
decimal significand prefix, an optional exponent, trailing garbage ignored,
NaN mapped to `none`.  (The JS literals `Infinity`/`NaN` accepted by
`parseFloat` are not representable in `ℚ` and are mapped to `none`; no input
relevant to a claim contains them.)
-/

namespace MediaFragment

/-- Whitespace characters removed by JavaScript `String.prototype.trim`
(the common ASCII/Unicode ones; the claims only use `' '`). -/
def isJsWhitespace (c : Char) : Bool :=
  c = ' ' || c = '\t' || c = '\n' || c = '\r' ||
  c = '\x0b' || c = '\x0c' || c = '\u00A0' || c = '\uFEFF'

/-- JavaScript `str.trim()`. -/
def trimChars (cs : List Char) : List Char :=
  ((cs.dropWhile isJsWhitespace).reverse.dropWhile isJsWhitespace).reverse

/-- JavaScript `str.split(sep)` for a single-character separator:
`"".split(sep) = [""]`, and every separator starts a new (possibly empty)
part. -/
def splitOnChar (sep : Char) : List Char → List (List Char)
  | [] => [[]]
  | c :: cs =>
    match splitOnChar sep cs with
    | [] => [[]]
    | g :: gs => if c = sep then [] :: g :: gs else (c :: g) :: gs

/-- Numeric value of a digit character. -/
def digitVal (c : Char) : ℕ := c.toNat - 48

/-- Value of a digit string read in base 10. -/
def digitsToNat (ds : List Char) : ℕ :=
  ds.foldl (fun n c => 10 * n + digitVal c) 0

/-- Value of a fractional digit string: `digitsToNat ds / 10 ^ ds.length`. -/
def fracVal (ds : List Char) : ℚ :=
  (digitsToNat ds : ℚ) / 10 ^ ds.length

/-- Exponent prefix of `parseFloat` after the `e`/`E`: optional sign and a
nonempty digit run; `none` when there is no digit (the exponent is then not
consumed, i.e. ignored). -/
def expValue (cs : List Char) : Option ℤ :=
  match cs with
  | '+' :: r => if (r.takeWhile Char.isDigit).isEmpty then none
                else some (digitsToNat (r.takeWhile Char.isDigit))
  | '-' :: r => if (r.takeWhile Char.isDigit).isEmpty then none
                else some (-(digitsToNat (r.takeWhile Char.isDigit) : ℤ))
  | _ => if (cs.takeWhile Char.isDigit).isEmpty then none
         else some (digitsToNat (cs.takeWhile Char.isDigit))

/-- Apply an optional `e`/`E` exponent suffix to a significand value,
ignoring trailing garbage, as `parseFloat` does. -/
def applyExp (v : ℚ) (cs : List Char) : ℚ :=
  match cs with
  | 'e' :: rest | 'E' :: rest =>
    match expValue rest with
    | some e => if 0 ≤ e then v * 10 ^ e.toNat else v / 10 ^ (-e).toNat
    | none => v
  | _ => v

/-- Unsigned part of `parseFloat`: a digit run, an optional `.` plus digit
run (at least one digit overall), an optional exponent; anything after the
numeric prefix is ignored.  `none` models NaN. -/
def jsParseUnsigned (cs : List Char) : Option ℚ :=
  let ds := cs.takeWhile Char.isDigit
  let rest := cs.dropWhile Char.isDigit
  match rest with
  | '.' :: rest2 =>
    let fs := rest2.takeWhile Char.isDigit
    let rest3 := rest2.dropWhile Char.isDigit
    if ds.isEmpty && fs.isEmpty then none
    else some (applyExp ((digitsToNat ds : ℚ) + fracVal fs) rest3)
  | _ => if ds.isEmpty then none else some (applyExp (digitsToNat ds) rest)

/-- JavaScript `parseFloat`, over `ℚ` (`none` models NaN; the `Infinity`
literal is not modelled, see the file header). -/
def jsParseFloat (cs : List Char) : Option ℚ :=
  match cs.dropWhile isJsWhitespace with
  | '+' :: rest => jsParseUnsigned rest
  | '-' :: rest => (jsParseUnsigned rest).map (fun v => -v)
  | other => jsParseUnsigned other

/-- The test `/^\d+(\.\d+)?$/.test timeStr`: a nonempty digit run optionally
followed by `.` and a nonempty digit run, with nothing else. -/
def isNptSecShape (cs : List Char) : Bool :=
  let d := cs.takeWhile Char.isDigit
  let r := cs.dropWhile Char.isDigit
  !d.isEmpty &&
    (r.isEmpty ||
      match r with
      | '.' :: fs => !fs.isEmpty && fs.all Char.isDigit
      | _ => false)

/-- The body of `parseNptTime` after the initial `timeStr = timeStr.trim()`
reassignment: seconds (`"10"`, `"10.5"`), `MM:SS`, or `HH:MM:SS`, with the
colon groups read by `parseFloat`, the NaN and range checks exactly as in
the source. -/
def parseNptTimeTrimmed (t : List Char) : Option ℚ :=
  if t.isEmpty then none
  else if isNptSecShape t then jsParseFloat t
  else
    match splitOnChar ':' t with
    | [m, s] =>
      match jsParseFloat m, jsParseFloat s with
      | some minutes, some seconds =>
        if minutes < 0 ∨ 60 ≤ minutes ∨ seconds < 0 ∨ 60 ≤ seconds then none
        else some (minutes * 60 + seconds)
      | _, _ => none
    | [h, m, s] =>
      match jsParseFloat h, jsParseFloat m, jsParseFloat s with
      | some hours, some minutes, some seconds =>
        if hours < 0 ∨ minutes < 0 ∨ seconds < 0 ∨
            60 ≤ minutes ∨ 60 ≤ seconds then none
        else some (hours * 3600 + minutes * 60 + seconds)
      | _, _, _ => none
    | _ => none

/-- `parseNptTime` from `media-fragment-parser.ts`: trim, then parse the
trimmed time string. -/
def parseNptTime (timeStr : List Char) : Option ℚ :=
  parseNptTimeTrimmed (trimChars timeStr)

/-- `TemporalFragment` from the source (`end` is a Lean keyword, hence
`end'`). -/
structure TemporalFragment where
  start : Option ℚ
  end' : Option ℚ
deriving DecidableEq, Repr

/-- `MediaFragmentParseResult` from the source. -/
structure MediaFragmentParseResult where
  temporalFragment : Option TemporalFragment
deriving DecidableEq, Repr

/-- Everything after the first occurrence of `sep` (`indexOf` +
`substring(hashIndex + 1)`); `none` when `sep` does not occur. -/
def afterFirst (sep : Char) : List Char → Option (List Char)
  | [] => none
  | c :: cs => if c = sep then some cs else afterFirst sep cs

/-- The regex loop `while ((match = /(?:^|&)t=([^&]*)/g.exec fragment))`
keeping the last capture: the `&`-separated segments whose first two
characters are `t=`, last one's remainder. -/
def lastTParam (fragment : List Char) : Option (List Char) :=
  ((splitOnChar '&' fragment).filterMap fun seg =>
    if ['t', '='].isPrefixOf seg then some (seg.drop 2) else none).getLast?

/-- One `startTime`/`endTime` block of the source: trim, empty means "bound
absent", a failed `parseNptTime` aborts the whole parse (outer `none`), and
a parsed value is kept only when `0 ≤ v` (the defensive `>= 0` guard). -/
def resolveBound (part : List Char) : Option (Option ℚ) :=
  let t := trimChars part
  if t.isEmpty then some none
  else
    match parseNptTime t with
    | none => none
    | some v => some (if 0 ≤ v then some v else none)

/-- The source's `start >= end` test (false unless both bounds present). -/
def startGeEnd (tf : TemporalFragment) : Bool :=
  match tf.start, tf.end' with
  | some a, some b => b ≤ a
  | _, _ => false

/-- The three final rejection tests of `parseMediaFragment`, in source
order: `start ≥ end`, `start` absent with `end == 0`, both absent. -/
def finalizeFragment (tf : TemporalFragment) : MediaFragmentParseResult :=
  if startGeEnd tf then ⟨none⟩
  else if tf.start = none ∧ tf.end' = some 0 then ⟨none⟩
  else if tf.start = none ∧ tf.end' = none then ⟨none⟩
  else ⟨some tf⟩

/-- The body of `parseMediaFragment` from `cleanValue` on: split on `,`,
resolve one or two bounds (three or more parts are rejected), finalize. -/
def processTValue (cleanValue : List Char) : MediaFragmentParseResult :=
  match splitOnChar ',' cleanValue with
  | [p0] =>
    match resolveBound p0 with
    | none => ⟨none⟩
    | some st => finalizeFragment ⟨st, none⟩
  | [p0, p1] =>
    match resolveBound p0 with
    | none => ⟨none⟩
    | some st =>
      match resolveBound p1 with
      | none => ⟨none⟩
      | some en => finalizeFragment ⟨st, en⟩
  | _ => ⟨none⟩

/-- The steps of `parseMediaFragment` applied to the selected `t=` value:
the JS-falsy test `if (!temporalMatch)` (an empty match bails out), the
`npt:` strip, and the processing of the cleaned value. -/
def handleTValue (tm : List Char) : MediaFragmentParseResult :=
  if tm.isEmpty then ⟨none⟩
  else
    processTValue (if ['n', 'p', 't', ':'].isPrefixOf tm
                   then tm.drop 4 else tm)

/-- The steps of `parseMediaFragment` applied to the fragment body: select
the last `t=` parameter, then handle its value. -/
def handleFragment (fragment : List Char) : MediaFragmentParseResult :=
  match lastTParam fragment with
  | none => ⟨none⟩
  | some tm => handleTValue tm

/-- `parseMediaFragment` over `List Char`: locate the first `#` and handle
everything after it. -/
def parseMediaFragmentChars (cs : List Char) : MediaFragmentParseResult :=
  match afterFirst '#' cs with
  | none => ⟨none⟩
  | some fragment => handleFragment fragment

/-- `parseMediaFragment` from the source, over `String`. -/
def parseMediaFragment (sourceUrl : String) : MediaFragmentParseResult :=
  parseMediaFragmentChars sourceUrl.data

/-!
## The boundary enforcer

The controller that owns this state is not part of the source snapshot
(only its test suite is), so it is modelled from the design document,
section 4.2.
-/

/-- Modelled from the spec: `BoundaryLatch`, the mutable runtime state of
the Boundary Enforcer (the enforcer's controller source is missing from the
snapshot).  `armed` is set once a window with an `end` bound is registered;
`fired` becomes true the first time the boundary is crossed. -/
structure BoundaryLatch where
  armed : Bool
  fired : Bool
deriving DecidableEq, Repr

/-- The `end` bound of an optional window. -/
def windowEnd (w : Option TemporalFragment) : Option ℚ :=
  w.bind TemporalFragment.end'

/-- Modelled from the spec: `onWindowRegistered(window)` resets the latch:
`armed = window.end is present`, `fired = false`. -/
def onWindowRegistered (w : Option TemporalFragment) : BoundaryLatch :=
  ⟨(windowEnd w).isSome, false⟩

/-- Modelled from the spec: `onPositionUpdate(position, isAlreadyPaused)`.
Returns the new latch plus two flags: whether a pause was requested and
whether the one-shot "boundary reached" notification was emitted.  No-op
when unarmed or already fired; at or past the end, a pause is requested
and the notification emitted unless playback is already paused, in which
case only the latch is set. -/
def onPositionUpdate (w : Option TemporalFragment) (latch : BoundaryLatch)
    (position : ℚ) (isAlreadyPaused : Bool) : BoundaryLatch × Bool × Bool :=
  if !latch.armed || latch.fired then (latch, false, false)
  else
    match windowEnd w with
    | none => (latch, false, false)
    | some e =>
      if e ≤ position then
        if isAlreadyPaused then ({ latch with fired := true }, false, false)
        else ({ latch with fired := true }, true, true)
      else (latch, false, false)

/-- One enforcer step over an accumulated (latch, pause count,
notification count) state. -/
def enforcerStep (w : Option TemporalFragment)
    (acc : BoundaryLatch × ℕ × ℕ) (u : ℚ × Bool) : BoundaryLatch × ℕ × ℕ :=
  let r := onPositionUpdate w acc.1 u.1 u.2
  (r.1, acc.2.1 + (if r.2.1 then 1 else 0), acc.2.2 + (if r.2.2 then 1 else 0))

/-- Run the enforcer over a position-update feed (each update carries the
observed position and the collaborator's paused flag), starting from a
freshly registered window; returns the final latch and the total counts of
pause requests and boundary notifications. -/
def runEnforcer (w : Option TemporalFragment) (updates : List (ℚ × Bool)) :
    BoundaryLatch × ℕ × ℕ :=
  updates.foldl (enforcerStep w) (onWindowRegistered w, 0, 0)

/-!
## Auxiliary lemmas

The Batteries arithmetic on `Rat` is `@[irreducible]`; restoring
reducibility lets `decide` evaluate the parser on concrete URIs.
-/

attribute [local semireducible] Rat.mul Rat.add Rat.sub Rat.inv

theorem splitOnChar_ne_nil (sep : Char) (l : List Char) :
    splitOnChar sep l ≠ [] := by
  induction l with
  | nil => simp [splitOnChar]
  | cons c cs ih =>
    rcases h : splitOnChar sep cs with _ | ⟨g, gs⟩
    · exact absurd h ih
    · by_cases hc : c = sep <;> simp [splitOnChar, h, hc]

theorem splitOnChar_append (sep : Char) (a b : List Char) :
    splitOnChar sep (a ++ sep :: b) = splitOnChar sep a ++ splitOnChar sep b := by
  induction a with
  | nil =>
    simp only [List.nil_append, splitOnChar]
    rcases h : splitOnChar sep b with _ | ⟨g, gs⟩
    · exact absurd h (splitOnChar_ne_nil sep b)
    · simp
  | cons c cs ih =>
    rcases h : splitOnChar sep cs with _ | ⟨g, gs⟩
    · exact absurd h (splitOnChar_ne_nil sep cs)
    · rcases hb : splitOnChar sep b with _ | ⟨g2, gs2⟩
      · exact absurd hb (splitOnChar_ne_nil sep b)
      · by_cases hc : c = sep <;>
          simp [List.cons_append, splitOnChar, ih, h, hb, hc]

theorem splitOnChar_of_not_mem {sep : Char} {l : List Char} (h : sep ∉ l) :
    splitOnChar sep l = [l] := by
  induction l with
  | nil => simp [splitOnChar]
  | cons c cs ih =>
    have hc : c ≠ sep := fun e => h (e ▸ List.mem_cons_self c cs)
    have hcs : sep ∉ cs := fun m => h (List.mem_cons_of_mem c m)
    simp [splitOnChar, ih hcs, hc]

theorem length_splitOnChar (sep : Char) (l : List Char) :
    (splitOnChar sep l).length = l.count sep + 1 := by
  induction l with
  | nil => simp [splitOnChar]
  | cons c cs ih =>
    simp only [splitOnChar]
    rcases h : splitOnChar sep cs with _ | ⟨g, gs⟩
    · exact absurd h (splitOnChar_ne_nil sep cs)
    · rw [h] at ih
      by_cases hc : c = sep
      · subst hc
        simp_all [List.count_cons]
      · simp_all [List.count_cons, Ne.symm hc, hc]

theorem afterFirst_append {sep : Char} {p : List Char} (h : sep ∉ p)
    (r : List Char) : afterFirst sep (p ++ sep :: r) = some r := by
  induction p with
  | nil => simp [afterFirst]
  | cons c cs ih =>
    have hc : c ≠ sep := fun e => h (e ▸ List.mem_cons_self c cs)
    have hcs : sep ∉ cs := fun m => h (List.mem_cons_of_mem c m)
    simp [afterFirst, hc, ih hcs]

theorem afterFirst_of_not_mem {sep : Char} {l : List Char} (h : sep ∉ l) :
    afterFirst sep l = none := by
  induction l with
  | nil => rfl
  | cons c cs ih =>
    have hc : c ≠ sep := fun e => h (e ▸ List.mem_cons_self c cs)
    have hcs : sep ∉ cs := fun m => h (List.mem_cons_of_mem c m)
    simp [afterFirst, hc, ih hcs]

theorem takeWhile_eq_self_of_all {p : Char → Bool} {l : List Char}
    (h : ∀ c ∈ l, p c = true) : l.takeWhile p = l := by
  induction l with
  | nil => rfl
  | cons c cs ih =>
    simp [List.takeWhile_cons, h c (List.mem_cons_self c cs),
      ih (fun x hx => h x (List.mem_cons_of_mem c hx))]

theorem dropWhile_eq_nil_of_all {p : Char → Bool} {l : List Char}
    (h : ∀ c ∈ l, p c = true) : l.dropWhile p = [] := by
  induction l with
  | nil => rfl
  | cons c cs ih =>
    simp [List.dropWhile_cons, h c (List.mem_cons_self c cs),
      ih (fun x hx => h x (List.mem_cons_of_mem c hx))]

theorem takeWhile_append_cons {p : Char → Bool} {a : List Char} {x : Char}
    (r : List Char) (ha : ∀ c ∈ a, p c = true) (hx : p x = false) :
    (a ++ x :: r).takeWhile p = a := by
  induction a with
  | nil => simp [List.takeWhile_cons, hx]
  | cons c cs ih =>
    simp [List.takeWhile_cons, ha c (List.mem_cons_self c cs),
      ih (fun y hy => ha y (List.mem_cons_of_mem c hy))]

theorem dropWhile_append_cons {p : Char → Bool} {a : List Char} {x : Char}
    (r : List Char) (ha : ∀ c ∈ a, p c = true) (hx : p x = false) :
    (a ++ x :: r).dropWhile p = x :: r := by
  induction a with
  | nil => simp [List.dropWhile_cons, hx]
  | cons c cs ih =>
    simp [List.dropWhile_cons, ha c (List.mem_cons_self c cs),
      ih (fun y hy => ha y (List.mem_cons_of_mem c hy))]

theorem dropWhile_eq_self_of_all {p : Char → Bool} {l : List Char}
    (h : ∀ c ∈ l, p c = false) : l.dropWhile p = l := by
  cases l with
  | nil => rfl
  | cons c cs => simp [List.dropWhile_cons, h c (List.mem_cons_self c cs)]

theorem trimChars_eq_self {l : List Char}
    (h : ∀ c ∈ l, isJsWhitespace c = false) : trimChars l = l := by
  unfold trimChars
  rw [dropWhile_eq_self_of_all h,
    dropWhile_eq_self_of_all (fun c hc => h c (List.mem_reverse.mp hc)),
    List.reverse_reverse]

theorem not_ws_of_isDigit {c : Char} (h : c.isDigit = true) :
    isJsWhitespace c = false := by
  cases hw : isJsWhitespace c
  · rfl
  · exfalso
    simp only [isJsWhitespace, Bool.or_eq_true, decide_eq_true_eq] at hw
    rcases hw with ((((((rfl | rfl) | rfl) | rfl) | rfl) | rfl) | rfl) | rfl <;>
      exact absurd h (by decide)

theorem ne_of_isDigit {c x : Char} (h : c.isDigit = true)
    (hx : x.isDigit = false) : c ≠ x := by
  rintro rfl
  rw [h] at hx
  cases hx

theorem jsParseUnsigned_digits {ds : List Char} (hne : ds ≠ [])
    (h : ∀ c ∈ ds, c.isDigit = true) :
    jsParseUnsigned ds = some ((digitsToNat ds : ℚ)) := by
  unfold jsParseUnsigned
  rw [takeWhile_eq_self_of_all h, dropWhile_eq_nil_of_all h]
  simp [applyExp, List.isEmpty_eq_false.mpr hne]

theorem jsParseUnsigned_digits_frac {ds fs : List Char} (hds : ds ≠ [])
    (h1 : ∀ c ∈ ds, c.isDigit = true) (h2 : ∀ c ∈ fs, c.isDigit = true) :
    jsParseUnsigned (ds ++ '.' :: fs) =
      some ((digitsToNat ds : ℚ) + fracVal fs) := by
  unfold jsParseUnsigned
  rw [takeWhile_append_cons fs h1 (by decide),
    dropWhile_append_cons fs h1 (by decide)]
  simp only []
  rw [takeWhile_eq_self_of_all h2, dropWhile_eq_nil_of_all h2]
  simp [applyExp, List.isEmpty_eq_false.mpr hds]

theorem dropWhile_cons_of_false {p : Char → Bool} {c : Char} (l : List Char)
    (hc : p c = false) : (c :: l).dropWhile p = c :: l := by
  simp [List.dropWhile_cons, hc]

theorem jsParseFloat_of_digit_head {d : Char} {ds : List Char}
    (hd : d.isDigit = true) :
    jsParseFloat (d :: ds) = jsParseUnsigned (d :: ds) := by
  unfold jsParseFloat
  rw [dropWhile_cons_of_false ds (not_ws_of_isDigit hd)]
  split
  · next rest heq =>
      injection heq with h1 h2
      exact absurd h1 (ne_of_isDigit hd (by decide))
  · next rest heq =>
      injection heq with h1 h2
      exact absurd h1 (ne_of_isDigit hd (by decide))
  · rfl

theorem isNptSecShape_digits {ds : List Char} (hne : ds ≠ [])
    (h : ∀ c ∈ ds, c.isDigit = true) : isNptSecShape ds = true := by
  unfold isNptSecShape
  rw [takeWhile_eq_self_of_all h, dropWhile_eq_nil_of_all h]
  simp [List.isEmpty_eq_false.mpr hne]

theorem isNptSecShape_digits_frac {ds fs : List Char} (hds : ds ≠ [])
    (hfs : fs ≠ []) (h1 : ∀ c ∈ ds, c.isDigit = true)
    (h2 : ∀ c ∈ fs, c.isDigit = true) :
    isNptSecShape (ds ++ '.' :: fs) = true := by
  unfold isNptSecShape
  rw [takeWhile_append_cons fs h1 (by decide),
    dropWhile_append_cons fs h1 (by decide)]
  simp [List.isEmpty_eq_false.mpr hds, List.isEmpty_eq_false.mpr hfs,
    List.all_eq_true]
  exact fun c hc => h2 c hc

theorem mem_of_isNptSecShape {cs : List Char} (h : isNptSecShape cs = true) :
    ∀ c ∈ cs, c.isDigit = true ∨ c = '.' := by
  intro c hc
  by_cases hdig : c.isDigit = true
  · exact Or.inl hdig
  · right
    rw [← List.takeWhile_append_dropWhile (p := Char.isDigit) (l := cs)] at hc
    rcases List.mem_append.mp hc with h1 | h2
    · exact absurd (List.mem_takeWhile_imp h1) hdig
    · unfold isNptSecShape at h
      rcases hd : cs.dropWhile Char.isDigit with _ | ⟨x, fs⟩
      · rw [hd] at h2
        cases h2
      · rw [hd] at h h2
        simp only [Bool.and_eq_true, Bool.or_eq_true] at h
        obtain ⟨-, h⟩ := h
        rcases h with hemp | hm
        · simp at hemp
        · split at hm
          · next fs2 heq =>
              injection heq with e1 e2
              rcases List.mem_cons.mp h2 with rfl | hcf
              · exact e1
              · subst e2
                exfalso
                simp only [Bool.and_eq_true, List.all_eq_true] at hm
                exact hdig (hm.2 c hcf)
          · cases hm

theorem isNptSecShape_eq_false_of_colon {cs : List Char} (hc : ':' ∈ cs) :
    isNptSecShape cs = false := by
  cases hsh : isNptSecShape cs
  · rfl
  · rcases mem_of_isNptSecShape hsh ':' hc with hdig | hdot
    · exact absurd hdig (by decide)
    · exact absurd hdot (by decide)

theorem dropWhile_idem {p : Char → Bool} (l : List Char) :
    (l.dropWhile p).dropWhile p = l.dropWhile p := by
  induction l with
  | nil => rfl
  | cons c cs ih =>
    by_cases hc : p c = true <;> simp [List.dropWhile_cons, hc, ih]

theorem trimChars_idem (l : List Char) :
    trimChars (trimChars l) = trimChars l := by
  have key : ∀ x : List Char, trimChars x =
      ((x.dropWhile isJsWhitespace).reverse.dropWhile isJsWhitespace).reverse :=
    fun x => rfl
  have claim1 : (trimChars l).dropWhile isJsWhitespace = trimChars l := by
    rcases hBr : trimChars l with _ | ⟨c, r⟩
    · rfl
    · have hpre : trimChars l <+: l.dropWhile isJsWhitespace := by
        rw [key l]
        conv_rhs => rw [← List.reverse_reverse (l.dropWhile isJsWhitespace)]
        exact (List.dropWhile_suffix isJsWhitespace).reverse
      rw [hBr] at hpre
      obtain ⟨t, ht⟩ := hpre
      have hcA : isJsWhitespace c = false := by
        rcases hA : l.dropWhile isJsWhitespace with _ | ⟨a, as⟩
        · rw [hA] at ht
          cases ht
        · have hw : l.dropWhile isJsWhitespace ≠ [] := by
            rw [hA]
            simp
          have hhead := List.head_dropWhile_not isJsWhitespace l hw
          have ha : isJsWhitespace a = false := by
            simpa [hA] using hhead
          rw [hA] at ht
          injection ht with e1 e2
          rw [e1]
          exact ha
      exact dropWhile_cons_of_false r hcA
  rw [key (trimChars l), claim1, key l, List.reverse_reverse, dropWhile_idem]

theorem parseNptTime_digits {ds : List Char} (hne : ds ≠ [])
    (h : ∀ c ∈ ds, c.isDigit = true) :
    parseNptTime ds = some ((digitsToNat ds : ℚ)) := by
  obtain ⟨d, ds', rfl⟩ := List.exists_cons_of_ne_nil hne
  unfold parseNptTime
  rw [trimChars_eq_self (fun c hc => not_ws_of_isDigit (h c hc))]
  unfold parseNptTimeTrimmed
  simp [isNptSecShape_digits hne h,
    jsParseFloat_of_digit_head (h d (List.mem_cons_self d ds')),
    jsParseUnsigned_digits hne h]

theorem parseNptTime_digits_frac {ds fs : List Char} (hds : ds ≠ [])
    (hfs : fs ≠ []) (h1 : ∀ c ∈ ds, c.isDigit = true)
    (h2 : ∀ c ∈ fs, c.isDigit = true) :
    parseNptTime (ds ++ '.' :: fs) =
      some ((digitsToNat ds : ℚ) + fracVal fs) := by
  obtain ⟨d, ds', rfl⟩ := List.exists_cons_of_ne_nil hds
  have hall : ∀ c ∈ (d :: ds') ++ '.' :: fs, isJsWhitespace c = false := by
    intro c hc
    rcases List.mem_append.mp hc with h1m | h2m
    · exact not_ws_of_isDigit (h1 c h1m)
    · rcases List.mem_cons.mp h2m with rfl | h3m
      · decide
      · exact not_ws_of_isDigit (h2 c h3m)
  unfold parseNptTime
  rw [trimChars_eq_self hall]
  unfold parseNptTimeTrimmed
  have hshape := isNptSecShape_digits_frac hds hfs h1 h2
  have hhead : jsParseFloat ((d :: ds') ++ '.' :: fs) =
      jsParseUnsigned ((d :: ds') ++ '.' :: fs) := by
    rw [List.cons_append]
    exact jsParseFloat_of_digit_head (h1 d (List.mem_cons_self d ds'))
  have hval := jsParseUnsigned_digits_frac hds h1 h2
  simp only [List.cons_append] at hshape hhead hval
  simp [hshape, hhead, hval]

theorem parseNptTime_two_groups {mg sg : List Char} {mv sv : ℚ}
    (hm : ':' ∉ mg) (hs : ':' ∉ sg)
    (hws : ∀ c ∈ mg ++ ':' :: sg, isJsWhitespace c = false)
    (hfm : jsParseFloat mg = some mv) (hfs : jsParseFloat sg = some sv) :
    parseNptTime (mg ++ ':' :: sg) =
      if mv < 0 ∨ 60 ≤ mv ∨ sv < 0 ∨ 60 ≤ sv then none
      else some (mv * 60 + sv) := by
  have hcolon : ':' ∈ mg ++ ':' :: sg :=
    List.mem_append.mpr (Or.inr (List.mem_cons_self ':' sg))
  have hemp : (mg ++ ':' :: sg).isEmpty = false := by
    cases mg <;> simp
  unfold parseNptTime
  rw [trimChars_eq_self hws]
  unfold parseNptTimeTrimmed
  rw [splitOnChar_append ':' mg sg, splitOnChar_of_not_mem hm,
    splitOnChar_of_not_mem hs]
  simp [hemp, isNptSecShape_eq_false_of_colon hcolon, hfm, hfs]

theorem parseNptTime_three_groups {hg mg sg : List Char} {hv mv sv : ℚ}
    (hh : ':' ∉ hg) (hm : ':' ∉ mg) (hs : ':' ∉ sg)
    (hws : ∀ c ∈ hg ++ ':' :: (mg ++ ':' :: sg), isJsWhitespace c = false)
    (hfh : jsParseFloat hg = some hv) (hfm : jsParseFloat mg = some mv)
    (hfs : jsParseFloat sg = some sv) :
    parseNptTime (hg ++ ':' :: (mg ++ ':' :: sg)) =
      if hv < 0 ∨ mv < 0 ∨ sv < 0 ∨ 60 ≤ mv ∨ 60 ≤ sv then none
      else some (hv * 3600 + mv * 60 + sv) := by
  have hcolon : ':' ∈ hg ++ ':' :: (mg ++ ':' :: sg) :=
    List.mem_append.mpr (Or.inr (List.mem_cons_self ':' _))
  have hemp : (hg ++ ':' :: (mg ++ ':' :: sg)).isEmpty = false := by
    cases hg <;> simp
  unfold parseNptTime
  rw [trimChars_eq_self hws]
  unfold parseNptTimeTrimmed
  rw [splitOnChar_append ':' hg (mg ++ ':' :: sg),
    splitOnChar_append ':' mg sg, splitOnChar_of_not_mem hh,
    splitOnChar_of_not_mem hm, splitOnChar_of_not_mem hs]
  simp [hemp, isNptSecShape_eq_false_of_colon hcolon, hfh, hfm, hfs]

theorem lastTParam_of_not_amp {v : List Char} (h : '&' ∉ v) :
    lastTParam ('t' :: '=' :: v) = some v := by
  have hnm : '&' ∉ 't' :: '=' :: v := by
    intro hm
    rcases List.mem_cons.mp hm with e | hm2
    · cases e
    · rcases List.mem_cons.mp hm2 with e | hm3
      · cases e
      · exact h hm3
  unfold lastTParam
  rw [splitOnChar_of_not_mem hnm]
  have hp : (['t', '='].isPrefixOf ('t' :: '=' :: v)) = true := by
    simp [List.isPrefixOf]
  simp [List.filterMap_cons, hp]

theorem lastTParam_append_last {f v : List Char} (h : '&' ∉ v) :
    lastTParam (f ++ '&' :: ('t' :: '=' :: v)) = some v := by
  have hnm : '&' ∉ 't' :: '=' :: v := by
    intro hm
    rcases List.mem_cons.mp hm with e | hm2
    · cases e
    · rcases List.mem_cons.mp hm2 with e | hm3
      · cases e
      · exact h hm3
  unfold lastTParam
  rw [splitOnChar_append '&' f ('t' :: '=' :: v), splitOnChar_of_not_mem hnm,
    List.filterMap_append]
  have hp : (['t', '='].isPrefixOf ('t' :: '=' :: v)) = true := by
    simp [List.isPrefixOf]
  have hseg : (List.filterMap
      (fun seg => if ['t', '='].isPrefixOf seg then some (seg.drop 2) else none)
      [('t' :: '=' :: v)]) = [v] := by
    simp [List.filterMap_cons, hp]
  rw [hseg, List.getLast?_concat]

theorem parseChars_hash {p f : List Char} (hp : '#' ∉ p) :
    parseMediaFragmentChars (p ++ '#' :: f) = handleFragment f := by
  unfold parseMediaFragmentChars
  rw [afterFirst_append hp f]

theorem parseChars_no_hash {cs : List Char} (hp : '#' ∉ cs) :
    parseMediaFragmentChars cs = ⟨none⟩ := by
  unfold parseMediaFragmentChars
  rw [afterFirst_of_not_mem hp]

theorem processTValue_two {v₁ v₂ : List Char} (h1 : ',' ∉ v₁) (h2 : ',' ∉ v₂) :
    processTValue (v₁ ++ ',' :: v₂) =
      match resolveBound v₁ with
      | none => ⟨none⟩
      | some st =>
        match resolveBound v₂ with
        | none => ⟨none⟩
        | some en => finalizeFragment ⟨st, en⟩ := by
  unfold processTValue
  rw [splitOnChar_append ',' v₁ v₂, splitOnChar_of_not_mem h1,
    splitOnChar_of_not_mem h2]
  rfl

theorem processTValue_one {v : List Char} (h : ',' ∉ v) :
    processTValue v =
      match resolveBound v with
      | none => ⟨none⟩
      | some st => finalizeFragment ⟨st, none⟩ := by
  unfold processTValue
  rw [splitOnChar_of_not_mem h]

theorem processTValue_many {v : List Char} (h : 2 ≤ v.count ',') :
    processTValue v = ⟨none⟩ := by
  have hlen : 3 ≤ (splitOnChar ',' v).length := by
    rw [length_splitOnChar]
    omega
  rcases hsp : splitOnChar ',' v with _ | ⟨a, _ | ⟨b, _ | ⟨c, r⟩⟩⟩ <;>
    rw [hsp] at hlen <;> simp at hlen
  unfold processTValue
  rw [hsp]

theorem resolveBound_eq (p : List Char) :
    resolveBound p =
      if (trimChars p).isEmpty then some none
      else
        match parseNptTime p with
        | none => none
        | some v => some (if 0 ≤ v then some v else none) := by
  simp only [resolveBound, parseNptTime, trimChars_idem]

theorem handleTValue_clean {v : List Char} (hne : v ≠ [])
    (hnp : (['n', 'p', 't', ':'].isPrefixOf v) = false) :
    handleTValue v = processTValue v := by
  unfold handleTValue
  rw [hnp]
  simp [List.isEmpty_eq_false.mpr hne]

theorem handleTValue_npt (v : List Char) :
    handleTValue ('n' :: 'p' :: 't' :: ':' :: v) = processTValue v := by
  have hp : (['n', 'p', 't', ':'].isPrefixOf ('n' :: 'p' :: 't' :: ':' :: v)) = true := by
    simp [List.isPrefixOf]
  unfold handleTValue
  simp [hp]

theorem finalizeFragment_some {tf tf' : TemporalFragment}
    (h : finalizeFragment tf = ⟨some tf'⟩) :
    tf' = tf ∧ ¬(tf.start = none ∧ tf.end' = none) ∧
      (∀ a b : ℚ, tf.start = some a → tf.end' = some b → a < b) ∧
      ¬(tf.start = none ∧ tf.end' = some 0) := by
  unfold finalizeFragment at h
  split at h
  · simp at h
  · split at h
    · simp at h
    · split at h
      · simp at h
      · next hge hz hn =>
          simp only [MediaFragmentParseResult.mk.injEq, Option.some.injEq] at h
          refine ⟨h.symm, hn, ?_, hz⟩
          intro a b ha hb
          unfold startGeEnd at hge
          rw [ha, hb] at hge
          simp only [decide_eq_true_eq] at hge
          exact lt_of_not_le (fun hba => hge (by simpa using hba))

theorem processTValue_some {v : List Char} {tf : TemporalFragment}
    (h : processTValue v = ⟨some tf⟩) :
    ¬(tf.start = none ∧ tf.end' = none) ∧
      (∀ a b : ℚ, tf.start = some a → tf.end' = some b → a < b) ∧
      ¬(tf.start = none ∧ tf.end' = some 0) := by
  unfold processTValue at h
  split at h
  · split at h
    · simp at h
    · obtain ⟨e, hrest⟩ := finalizeFragment_some h
      rw [e]
      exact hrest
  · split at h
    · simp at h
    · split at h
      · simp at h
      · obtain ⟨e, hrest⟩ := finalizeFragment_some h
        rw [e]
        exact hrest
  · simp at h

theorem handleTValue_some {tm : List Char} {tf : TemporalFragment}
    (h : handleTValue tm = ⟨some tf⟩) :
    ¬(tf.start = none ∧ tf.end' = none) ∧
      (∀ a b : ℚ, tf.start = some a → tf.end' = some b → a < b) ∧
      ¬(tf.start = none ∧ tf.end' = some 0) := by
  unfold handleTValue at h
  split at h
  · simp at h
  · exact processTValue_some h

theorem handleFragment_some {f : List Char} {tf : TemporalFragment}
    (h : handleFragment f = ⟨some tf⟩) :
    ¬(tf.start = none ∧ tf.end' = none) ∧
      (∀ a b : ℚ, tf.start = some a → tf.end' = some b → a < b) ∧
      ¬(tf.start = none ∧ tf.end' = some 0) := by
  unfold handleFragment at h
  split at h
  · simp at h
  · exact handleTValue_some h

/-- Claim C2: whenever `parseMediaFragment` returns a present temporal
fragment, the window invariants hold: not both bounds absent; if both
present then `start < end` strictly; and never "start absent with end equal
to 0". -/
theorem windowInvariants (s : String) (tf : TemporalFragment)
    (h : parseMediaFragment s = ⟨some tf⟩) :
    ¬(tf.start = none ∧ tf.end' = none) ∧
      (∀ a b : ℚ, tf.start = some a → tf.end' = some b → a < b) ∧
      ¬(tf.start = none ∧ tf.end' = some 0) := by
  unfold parseMediaFragment parseMediaFragmentChars at h
  split at h
  · simp at h
  · exact handleFragment_some h

/-- Witness for C2 at the URI `#t=10,20`. -/
theorem windowInvariants_witness :
    ¬((⟨some 10, some 20⟩ : TemporalFragment).start = none ∧
        (⟨some 10, some 20⟩ : TemporalFragment).end' = none) ∧
      (∀ a b : ℚ, (⟨some 10, some 20⟩ : TemporalFragment).start = some a →
        (⟨some 10, some 20⟩ : TemporalFragment).end' = some b → a < b) ∧
      ¬((⟨some 10, some 20⟩ : TemporalFragment).start = none ∧
        (⟨some 10, some 20⟩ : TemporalFragment).end' = some 0) :=
  windowInvariants ("http://example.com/video.m3u8#t=10,20")
    ⟨some 10, some 20⟩ (by decide)

/-- Claim C7: the spec's basic shape examples: `#t=10,20`, `#t=10`,
`#t=,20`, and the `npt:` prefix being stripped in `#t=npt:15,25`. -/
theorem basicShapes :
    parseMediaFragment ("http://example.com/video.m3u8#t=10,20") =
      ⟨some ⟨some 10, some 20⟩⟩ ∧
    parseMediaFragment ("http://example.com/video.m3u8#t=10") =
      ⟨some ⟨some 10, none⟩⟩ ∧
    parseMediaFragment ("http://example.com/video.m3u8#t=,20") =
      ⟨some ⟨none, some 20⟩⟩ ∧
    parseMediaFragment ("http://example.com/video.m3u8#t=npt:15,25") =
      ⟨some ⟨some 15, some 25⟩⟩ :=
  ⟨by decide, by decide, by decide, by decide⟩

/-- Claim C5: the parser is a total function whose only failure mode is the
absent result; a malformed or out-of-range temporal specification yields
the very same value as a URI with no temporal fragment at all. -/
theorem parseTotalAbsent :
    (∀ s : String, parseMediaFragment s = ⟨none⟩ ∨
      ∃ tf, parseMediaFragment s = ⟨some tf⟩) ∧
    parseMediaFragment ("http://example.com/video.m3u8#t=abc,def") =
      parseMediaFragment ("http://example.com/video.m3u8") ∧
    parseMediaFragment ("http://example.com/video.m3u8#t=60:00,70:00") =
      parseMediaFragment ("http://example.com/video.m3u8") := by
  refine ⟨fun s => ?_, by decide, by decide⟩
  rcases h : parseMediaFragment s with ⟨_ | tf⟩
  · exact Or.inl rfl
  · exact Or.inr ⟨tf, rfl⟩

theorem handleFragment_eq {f tm : List Char} (h : lastTParam f = some tm) :
    handleFragment f = handleTValue tm := by
  unfold handleFragment
  rw [h]

theorem amp_not_mem_value {v : List Char} (h : '&' ∉ v) :
    '&' ∉ 't' :: '=' :: v := by
  intro hm
  rcases List.mem_cons.mp hm with e | hm2
  · cases e
  · rcases List.mem_cons.mp hm2 with e | hm3
    · cases e
    · exact h hm3

/-- Claim C1: with several `t=` parameters in the fragment body, only the
last literal occurrence is processed: prepending any earlier `t=`
occurrence does not change the result, the spec's example parses to
`{start:15, end:25}`, and a malformed last occurrence makes the whole
result absent even though an earlier occurrence was valid. -/
theorem lastOccurrenceWins :
    (∀ f v₂ : List Char, '&' ∉ v₂ →
      parseMediaFragmentChars
          ("url".data ++ '#' :: (f ++ '&' :: 't' :: '=' :: v₂)) =
        parseMediaFragmentChars ("url".data ++ '#' :: 't' :: '=' :: v₂)) ∧
    parseMediaFragment ("http://example.com/video.m3u8#t=5&t=15,25") =
      ⟨some ⟨some 15, some 25⟩⟩ ∧
    parseMediaFragment ("http://example.com/video.m3u8#t=5,10&t=60:00") =
      ⟨none⟩ := by
  refine ⟨fun f v₂ h2 => ?_, by decide, by decide⟩
  have hp : '#' ∉ "url".data := by decide
  rw [parseChars_hash hp, parseChars_hash hp,
    handleFragment_eq (lastTParam_append_last h2),
    handleFragment_eq (lastTParam_of_not_amp h2)]

/-- Witness for C1 at the earlier occurrence `t=5` and last occurrence
`15,25`. -/
theorem lastOccurrenceWins_witness :
    parseMediaFragmentChars
        ("url".data ++ '#' :: ("t=5".data ++ '&' :: 't' :: '=' :: "15,25".data)) =
      parseMediaFragmentChars ("url".data ++ '#' :: 't' :: '=' :: "15,25".data) :=
  lastOccurrenceWins.1 ("t=5".data) ("15,25".data) (by decide)

/-- Claim C8: a URI without `#`, with an empty fragment body, or whose
fragment body has only non-`t=` parameters parses to the absent result;
everything before the first `#` (query parameters included) is ignored. -/
theorem absentWithoutTemporalParam :
    (∀ s : String, '#' ∉ s.data → parseMediaFragment s = ⟨none⟩) ∧
    (∀ p : List Char, '#' ∉ p → parseMediaFragmentChars (p ++ ['#']) = ⟨none⟩) ∧
    (∀ p f : List Char, '#' ∉ p →
      (∀ seg ∈ splitOnChar '&' f, (['t', '='].isPrefixOf seg) = false) →
      parseMediaFragmentChars (p ++ '#' :: f) = ⟨none⟩) ∧
    (∀ p₁ p₂ f : List Char, '#' ∉ p₁ → '#' ∉ p₂ →
      parseMediaFragmentChars (p₁ ++ '#' :: f) =
        parseMediaFragmentChars (p₂ ++ '#' :: f)) ∧
    parseMediaFragment ("http://example.com/video.m3u8#track=video&id=main") =
      ⟨none⟩ ∧
    parseMediaFragment ("http://example.com/video.m3u8?token=abc#t=10,20") =
      ⟨some ⟨some 10, some 20⟩⟩ := by
  refine ⟨?_, ?_, ?_, ?_, by decide, by decide⟩
  · intro s h
    unfold parseMediaFragment
    exact parseChars_no_hash h
  · intro p h
    rw [show p ++ ['#'] = p ++ '#' :: ([] : List Char) by simp,
      parseChars_hash h]
    decide
  · intro p f hp hseg
    rw [parseChars_hash hp]
    unfold handleFragment lastTParam
    rw [List.filterMap_eq_nil_iff.mpr (fun seg hs => by simp [hseg seg hs])]
    rfl
  · intro p₁ p₂ f h1 h2
    rw [parseChars_hash h1, parseChars_hash h2]

/-- Witness for C8 at `s = "nohash"`, `p = "url"`, `f = "track=video"`. -/
theorem absentWithoutTemporalParam_witness :
    parseMediaFragment ("nohash") = ⟨none⟩ ∧
    parseMediaFragmentChars ("url".data ++ ['#']) = ⟨none⟩ ∧
    parseMediaFragmentChars ("url".data ++ '#' :: "track=video".data) =
      ⟨none⟩ ∧
    parseMediaFragmentChars ("a?q=1".data ++ '#' :: "t=10,20".data) =
      parseMediaFragmentChars ("b".data ++ '#' :: "t=10,20".data) :=
  ⟨absentWithoutTemporalParam.1 ("nohash") (by decide),
    absentWithoutTemporalParam.2.1 ("url".data) (by decide),
    absentWithoutTemporalParam.2.2.1 ("url".data) ("track=video".data)
      (by decide) (by decide),
    absentWithoutTemporalParam.2.2.2.1 ("a?q=1".data) ("b".data)
      ("t=10,20".data) (by decide) (by decide)⟩

/-- Claim C9: a `t=` value splitting into three or more comma-separated
parts is rejected unconditionally. -/
theorem tooManyParts :
    (∀ p v : List Char, '#' ∉ p → '&' ∉ v → 2 ≤ v.count ',' →
      parseMediaFragmentChars (p ++ '#' :: 't' :: '=' :: v) = ⟨none⟩) ∧
    parseMediaFragment ("http://example.com/video.m3u8#t=10,20,30") =
      ⟨none⟩ := by
  refine ⟨fun p v hp hv hc => ?_, by decide⟩
  rw [parseChars_hash hp,
    handleFragment_eq (lastTParam_of_not_amp hv)]
  have hvne : v ≠ [] := by
    rintro rfl
    simp at hc
  unfold handleTValue
  rw [if_neg (by simp [List.isEmpty_eq_false.mpr hvne])]
  by_cases hnp : (['n', 'p', 't', ':'].isPrefixOf v) = true
  · rw [if_pos hnp]
    obtain ⟨rest, hrest⟩ := List.isPrefixOf_iff_prefix.mp hnp
    rw [← hrest]
    have hdrop : List.drop 4 (['n', 'p', 't', ':'] ++ rest) = rest := rfl
    rw [hdrop]
    apply processTValue_many
    rw [← hrest, List.count_append] at hc
    simpa using hc
  · rw [if_neg hnp]
    exact processTValue_many hc

/-- Witness for C9 at the fragment value `10,20,30`. -/
theorem tooManyParts_witness :
    parseMediaFragmentChars ("url".data ++ '#' :: 't' :: '=' :: "10,20,30".data) =
      ⟨none⟩ :=
  tooManyParts.1 ("url".data) ("10,20,30".data) (by decide) (by decide)
    (by decide)

theorem resolveBound_congr {p q : List Char} (h : trimChars p = trimChars q) :
    resolveBound p = resolveBound q := by
  rw [resolveBound_eq, resolveBound_eq]
  unfold parseNptTime
  rw [h]

/-- Claim C10: each comma-separated part of the `t=` value is trimmed
before time-value parsing: values whose parts trim equally parse equally, a
padded `#t= 10 , 20` equals `#t=10,20`, and a whitespace-only part behaves
like an empty (absent) bound. -/
theorem partsTrimmed :
    (∀ p₁ p₂ q₁ q₂ : List Char,
      ',' ∉ p₁ → ',' ∉ p₂ → ',' ∉ q₁ → ',' ∉ q₂ →
      '&' ∉ p₁ → '&' ∉ p₂ → '&' ∉ q₁ → '&' ∉ q₂ →
      trimChars p₁ = trimChars q₁ → trimChars p₂ = trimChars q₂ →
      (['n', 'p', 't', ':'].isPrefixOf (p₁ ++ ',' :: p₂)) = false →
      (['n', 'p', 't', ':'].isPrefixOf (q₁ ++ ',' :: q₂)) = false →
      parseMediaFragmentChars
          ("url".data ++ '#' :: 't' :: '=' :: (p₁ ++ ',' :: p₂)) =
        parseMediaFragmentChars
          ("url".data ++ '#' :: 't' :: '=' :: (q₁ ++ ',' :: q₂))) ∧
    parseMediaFragment ("http://example.com/video.m3u8#t= 10 , 20") =
      parseMediaFragment ("http://example.com/video.m3u8#t=10,20") ∧
    parseMediaFragment ("http://example.com/video.m3u8#t=10,   ") =
      parseMediaFragment ("http://example.com/video.m3u8#t=10,") := by
  refine ⟨?_, by decide, by decide⟩
  intro p₁ p₂ q₁ q₂ hcp1 hcp2 hcq1 hcq2 hap1 hap2 haq1 haq2 ht1 ht2 hnp hnq
  have hp : '#' ∉ "url".data := by decide
  have hampp : '&' ∉ p₁ ++ ',' :: p₂ := by
    intro hm
    rcases List.mem_append.mp hm with h1 | h2
    · exact hap1 h1
    · rcases List.mem_cons.mp h2 with e | h3
      · cases e
      · exact hap2 h3
  have hampq : '&' ∉ q₁ ++ ',' :: q₂ := by
    intro hm
    rcases List.mem_append.mp hm with h1 | h2
    · exact haq1 h1
    · rcases List.mem_cons.mp h2 with e | h3
      · cases e
      · exact haq2 h3
  rw [parseChars_hash hp, parseChars_hash hp,
    handleFragment_eq (lastTParam_of_not_amp hampp),
    handleFragment_eq (lastTParam_of_not_amp hampq)]
  have hnep : (p₁ ++ ',' :: p₂) ≠ [] := by
    cases p₁ <;> simp
  have hneq : (q₁ ++ ',' :: q₂) ≠ [] := by
    cases q₁ <;> simp
  rw [handleTValue_clean hnep hnp, handleTValue_clean hneq hnq,
    processTValue_two hcp1 hcp2, processTValue_two hcq1 hcq2,
    resolveBound_congr ht1, resolveBound_congr ht2]

/-- Witness for C10 at padded parts `" 10 "`, `" 20"` against `"10"`,
`"20"`. -/
theorem partsTrimmed_witness :
    parseMediaFragmentChars
        ("url".data ++ '#' :: 't' :: '=' :: (" 10 ".data ++ ',' :: " 20".data)) =
      parseMediaFragmentChars
        ("url".data ++ '#' :: 't' :: '=' :: ("10".data ++ ',' :: "20".data)) :=
  partsTrimmed.1 (" 10 ".data) (" 20".data) ("10".data) ("20".data)
    (by decide) (by decide) (by decide) (by decide) (by decide) (by decide)
    (by decide) (by decide) (by decide) (by decide) (by decide) (by decide)

/-- Counterexample to claim C3 as stated: the bound `00:30x` contains
non-numeric content (`x`), yet its time-value parse succeeds (the colon
group `30x` is read by the lenient `parseFloat` as `30`) and the whole URI
parses to a present window rather than an absent result. -/
theorem lenientBoundCounterexample :
    parseNptTime ("00:30x".data) = some 30 ∧
    parseMediaFragment ("http://example.com/video.m3u8#t=00:30x,50") =
      ⟨some ⟨some 30, some 50⟩⟩ :=
  ⟨by decide, by decide⟩

theorem resolveBound_none {p : List Char} (h1 : trimChars p ≠ [])
    (h2 : parseNptTime p = none) : resolveBound p = none := by
  rw [resolveBound_eq, if_neg (by simp [List.isEmpty_eq_false.mpr h1]), h2]

/-- Claim C3 as amended: a bound whose time-value parse fails (unsupported
shape, a colon group without a readable leading number, or a colon group
whose numeric value violates its range bound) makes the entire parse result
absent, including an otherwise-valid partner bound — in either position of
the pair; the range-violation examples `#t=60:00,70:00` and `#t=00:60,00:65`
are absent.  (Trailing non-numeric content after a readable numeric prefix
in a colon group does not by itself fail the bound.) -/
theorem invalidBoundRejection :
    (∀ v₁ v₂ : List Char, '&' ∉ v₁ → '&' ∉ v₂ → ',' ∉ v₁ → ',' ∉ v₂ →
      (['n', 'p', 't', ':'].isPrefixOf (v₁ ++ ',' :: v₂)) = false →
      trimChars v₁ ≠ [] → parseNptTime v₁ = none →
      parseMediaFragmentChars
        ("url".data ++ '#' :: 't' :: '=' :: (v₁ ++ ',' :: v₂)) = ⟨none⟩) ∧
    (∀ v₁ v₂ : List Char, '&' ∉ v₁ → '&' ∉ v₂ → ',' ∉ v₁ → ',' ∉ v₂ →
      (['n', 'p', 't', ':'].isPrefixOf (v₁ ++ ',' :: v₂)) = false →
      trimChars v₂ ≠ [] → parseNptTime v₂ = none →
      parseMediaFragmentChars
        ("url".data ++ '#' :: 't' :: '=' :: (v₁ ++ ',' :: v₂)) = ⟨none⟩) ∧
    parseMediaFragment ("http://example.com/video.m3u8#t=60:00,70:00") =
      ⟨none⟩ ∧
    parseMediaFragment ("http://example.com/video.m3u8#t=00:60,00:65") =
      ⟨none⟩ := by
  have hp : '#' ∉ "url".data := by decide
  have hamp : ∀ v₁ v₂ : List Char, '&' ∉ v₁ → '&' ∉ v₂ →
      '&' ∉ v₁ ++ ',' :: v₂ := by
    intro v₁ v₂ ha1 ha2 hm
    rcases List.mem_append.mp hm with h1 | h2
    · exact ha1 h1
    · rcases List.mem_cons.mp h2 with e | h3
      · cases e
      · exact ha2 h3
  have hne : ∀ v₁ v₂ : List Char, (v₁ ++ ',' :: v₂) ≠ [] := by
    intro v₁ v₂
    cases v₁ <;> simp
  refine ⟨?_, ?_, by decide, by decide⟩
  · intro v₁ v₂ ha1 ha2 hc1 hc2 hnp htr hpn
    rw [parseChars_hash hp,
      handleFragment_eq (lastTParam_of_not_amp (hamp v₁ v₂ ha1 ha2)),
      handleTValue_clean (hne v₁ v₂) hnp, processTValue_two hc1 hc2,
      resolveBound_none htr hpn]
  · intro v₁ v₂ ha1 ha2 hc1 hc2 hnp htr hpn
    rw [parseChars_hash hp,
      handleFragment_eq (lastTParam_of_not_amp (hamp v₁ v₂ ha1 ha2)),
      handleTValue_clean (hne v₁ v₂) hnp, processTValue_two hc1 hc2,
      resolveBound_none htr hpn]
    rcases resolveBound v₁ with _ | st <;> rfl

/-- Witness for the amended C3 at `#t=60:00,50` (malformed start, valid
end) and `#t=50,60:00` (valid start, malformed end). -/
theorem invalidBoundRejection_witness :
    parseMediaFragmentChars
        ("url".data ++ '#' :: 't' :: '=' :: ("60:00".data ++ ',' :: "50".data)) =
      ⟨none⟩ ∧
    parseMediaFragmentChars
        ("url".data ++ '#' :: 't' :: '=' :: ("50".data ++ ',' :: "60:00".data)) =
      ⟨none⟩ :=
  ⟨invalidBoundRejection.1 ("60:00".data) ("50".data) (by decide) (by decide)
      (by decide) (by decide) (by decide) (by decide) (by decide),
    invalidBoundRejection.2.1 ("50".data) ("60:00".data) (by decide)
      (by decide) (by decide) (by decide) (by decide) (by decide) (by decide)⟩

/-- Claim C4: the accepted time-value formats and their values: a pure
digit string (with optional decimal fraction) denotes its decimal value in
seconds; a two-group `MM:SS` string is accepted exactly when both groups
are in `[0, 60)` and denotes `minutes * 60 + seconds`; a three-group
`HH:MM:SS` string is accepted exactly when hours are nonnegative
(unbounded) and minutes and seconds are in `[0, 60)`, denoting
`hours * 3600 + minutes * 60 + seconds`; and the spec's example
`#t=0:02:00,0:03:30` parses to `{start:120, end:210}`. -/
theorem nptTimeValueFormats :
    (∀ ds : List Char, ds ≠ [] → (∀ c ∈ ds, c.isDigit = true) →
      parseNptTime ds = some ((digitsToNat ds : ℚ))) ∧
    (∀ ds fs : List Char, ds ≠ [] → fs ≠ [] →
      (∀ c ∈ ds, c.isDigit = true) → (∀ c ∈ fs, c.isDigit = true) →
      parseNptTime (ds ++ '.' :: fs) =
        some ((digitsToNat ds : ℚ) + fracVal fs)) ∧
    (∀ mg sg : List Char, ∀ mv sv : ℚ, ':' ∉ mg → ':' ∉ sg →
      (∀ c ∈ mg ++ ':' :: sg, isJsWhitespace c = false) →
      jsParseFloat mg = some mv → jsParseFloat sg = some sv →
      (0 ≤ mv ∧ mv < 60 ∧ 0 ≤ sv ∧ sv < 60 →
        parseNptTime (mg ++ ':' :: sg) = some (mv * 60 + sv)) ∧
      (¬(0 ≤ mv ∧ mv < 60 ∧ 0 ≤ sv ∧ sv < 60) →
        parseNptTime (mg ++ ':' :: sg) = none)) ∧
    (∀ hg mg sg : List Char, ∀ hv mv sv : ℚ, ':' ∉ hg → ':' ∉ mg → ':' ∉ sg →
      (∀ c ∈ hg ++ ':' :: (mg ++ ':' :: sg), isJsWhitespace c = false) →
      jsParseFloat hg = some hv → jsParseFloat mg = some mv →
      jsParseFloat sg = some sv →
      (0 ≤ hv ∧ 0 ≤ mv ∧ mv < 60 ∧ 0 ≤ sv ∧ sv < 60 →
        parseNptTime (hg ++ ':' :: (mg ++ ':' :: sg)) =
          some (hv * 3600 + mv * 60 + sv)) ∧
      (¬(0 ≤ hv ∧ 0 ≤ mv ∧ mv < 60 ∧ 0 ≤ sv ∧ sv < 60) →
        parseNptTime (hg ++ ':' :: (mg ++ ':' :: sg)) = none)) ∧
    parseMediaFragment ("http://example.com/video.m3u8#t=0:02:00,0:03:30") =
      ⟨some ⟨some 120, some 210⟩⟩ := by
  refine ⟨fun ds h1 h2 => parseNptTime_digits h1 h2,
    fun ds fs h1 h2 h3 h4 => parseNptTime_digits_frac h1 h2 h3 h4,
    ?_, ?_, by decide⟩
  · intro mg sg mv sv hm hs hws hfm hfs
    constructor
    · intro hr
      rw [parseNptTime_two_groups hm hs hws hfm hfs,
        if_neg (by push_neg; exact ⟨hr.1, hr.2.1, hr.2.2.1, hr.2.2.2⟩)]
    · intro hr
      rw [parseNptTime_two_groups hm hs hws hfm hfs,
        if_pos (by
          by_contra hcond
          push_neg at hcond
          exact hr ⟨hcond.1, hcond.2.1, hcond.2.2.1, hcond.2.2.2⟩)]
  · intro hg mg sg hv mv sv hh hm hs hws hfh hfm hfs
    constructor
    · intro hr
      rw [parseNptTime_three_groups hh hm hs hws hfh hfm hfs,
        if_neg (by
          push_neg
          exact ⟨hr.1, hr.2.1, hr.2.2.2.1, hr.2.2.1, hr.2.2.2.2⟩)]
    · intro hr
      rw [parseNptTime_three_groups hh hm hs hws hfh hfm hfs,
        if_pos (by
          by_contra hcond
          push_neg at hcond
          exact hr ⟨hcond.1, hcond.2.1, hcond.2.2.2.1, hcond.2.2.1,
            hcond.2.2.2.2⟩)]

/-- Witness for C4 at the `MM:SS` string `02:30` (valid case) and at
`60:00` via the whole parser in the last conjunct of the theorem. -/
theorem nptTimeValueFormats_witness :
    parseNptTime ("02".data ++ ':' :: "30".data) = some (2 * 60 + 30) :=
  (nptTimeValueFormats.2.2.1 ("02".data) ("30".data) 2 30 (by decide)
    (by decide) (by decide) (by decide) (by decide)).1 (by norm_num)

theorem onPositionUpdate_inert {w : Option TemporalFragment}
    {latch : BoundaryLatch} {pos : ℚ} {ap : Bool} (h : windowEnd w = none) :
    onPositionUpdate w latch pos ap = (latch, false, false) := by
  unfold onPositionUpdate
  split
  · rfl
  · rw [h]

theorem onPositionUpdate_fired {w : Option TemporalFragment}
    {latch : BoundaryLatch} {pos : ℚ} {ap : Bool} (h : latch.fired = true) :
    onPositionUpdate w latch pos ap = (latch, false, false) := by
  unfold onPositionUpdate
  rw [if_pos (by simp [h])]

theorem enforcerRun_fired {w : Option TemporalFragment}
    {latch : BoundaryLatch} (h : latch.fired = true)
    (us : List (ℚ × Bool)) (p n : ℕ) :
    us.foldl (enforcerStep w) (latch, p, n) = (latch, p, n) := by
  induction us with
  | nil => rfl
  | cons u us ih =>
    rw [List.foldl_cons]
    have hst : enforcerStep w (latch, p, n) u = (latch, p, n) := by
      unfold enforcerStep
      rw [onPositionUpdate_fired h]
      simp
    rw [hst, ih]

theorem enforcerRun_inert {w : Option TemporalFragment}
    (h : windowEnd w = none) (us : List (ℚ × Bool))
    (acc : BoundaryLatch × ℕ × ℕ) :
    us.foldl (enforcerStep w) acc = acc := by
  induction us generalizing acc with
  | nil => rfl
  | cons u us ih =>
    rw [List.foldl_cons]
    have hst : enforcerStep w acc u = acc := by
      unfold enforcerStep
      rw [onPositionUpdate_inert h]
      simp
    rw [hst, ih]

theorem enforcerRun_cross {e : ℚ} {w : Option TemporalFragment}
    (hw : windowEnd w = some e) :
    ∀ (us : List ℚ) (p n : ℕ), (∃ u ∈ us, e ≤ u) →
      (us.map (fun u => (u, false))).foldl (enforcerStep w)
          (⟨true, false⟩, p, n) =
        (⟨true, true⟩, p + 1, n + 1) := by
  intro us
  induction us with
  | nil =>
    rintro p n ⟨u, hu, -⟩
    cases hu
  | cons u us ih =>
    rintro p n ⟨x, hx, hxe⟩
    rw [List.map_cons, List.foldl_cons]
    by_cases hu : e ≤ u
    · have hst : enforcerStep w (⟨true, false⟩, p, n) (u, false) =
          (⟨true, true⟩, p + 1, n + 1) := by
        unfold enforcerStep onPositionUpdate
        simp [hw, hu]
      rw [hst, enforcerRun_fired rfl]
    · have hst : enforcerStep w (⟨true, false⟩, p, n) (u, false) =
          (⟨true, false⟩, p, n) := by
        unfold enforcerStep onPositionUpdate
        simp [hw, hu]
      rw [hst]
      refine ih p n ⟨x, ?_, hxe⟩
      rcases List.mem_cons.mp hx with rfl | hxs
      · exact absurd hxe hu
      · exact hxs

/-- Claim C6: for a registered window whose `end` bound is 20, any
position-update sequence (with playback not already paused) that reaches 20
produces exactly one pause request and exactly one boundary notification,
however many later updates are at or past 20; with no `end` bound, no
update ever produces a pause request. -/
theorem boundaryEnforcerOnce :
    (∀ w : TemporalFragment, w.end' = some 20 →
      ∀ us : List ℚ, (∃ u ∈ us, (20 : ℚ) ≤ u) →
      (runEnforcer (some w) (us.map (fun u => (u, false)))).2 = (1, 1)) ∧
    (∀ w : Option TemporalFragment, windowEnd w = none →
      ∀ us : List (ℚ × Bool), (runEnforcer w us).2.1 = 0) := by
  constructor
  · intro w hw us hex
    have hwe : windowEnd (some w) = some 20 := by simp [windowEnd, hw]
    unfold runEnforcer
    rw [show onWindowRegistered (some w) = (⟨true, false⟩ : BoundaryLatch) by
        simp [onWindowRegistered, hwe],
      enforcerRun_cross hwe us 0 0 hex]
  · intro w hw us
    unfold runEnforcer
    rw [enforcerRun_inert hw]

/-- Witness for C6: the sequence 10, 20, 25 crossing the bound 20 pauses
and notifies exactly once; with no end bound one update pauses never. -/
theorem boundaryEnforcerOnce_witness :
    (runEnforcer (some ⟨some 10, some 20⟩)
        ([10, 20, 25].map (fun u => (u, false)))).2 = (1, 1) ∧
    (runEnforcer none [(30, false)]).2.1 = 0 :=
  ⟨boundaryEnforcerOnce.1 ⟨some 10, some 20⟩ rfl [10, 20, 25]
      ⟨20, by decide, by norm_num⟩,
    boundaryEnforcerOnce.2 none rfl [(30, false)]⟩

end MediaFragment
